import Mathlib

/-!
Shallow embedding of the election-vote-blockchain ledger core
(`Block` and `Blockchain` classes from the backend's blockchain module).

The SHA256 digest comes from the external `crypto-js` library, so every
definition is parametrized by an abstract hash function
`H : String → String`; `calculateHash` applies `H` to the same string
concatenation the source feeds to SHA256.  Timestamps (`Date.now()`)
and persistence success are nondeterministic inputs and are passed in
explicitly.  The proof-of-work loop is modelled with explicit fuel: a
`none` result means the loop did not finish within the supplied fuel.
-/

namespace ElectionChain

/-- One entry of the pre-defined candidate roster. -/
structure Candidate where
  id : String
  name : String
  deriving DecidableEq

/-- A transaction: either a vote (created by `createVote`) or a mining
reward (pushed by `minePendingTransactions`). -/
inductive Transaction where
  | vote (voterId candidateId timestamp : String)
  | miningReward (toAddress : String) (amount : Nat) (timestamp : String)
  deriving DecidableEq

/-- A block's `data` field is `any` in the source: the genesis block stores a
plain string, mined blocks store an array of transactions. -/
inductive BlockData where
  | str (s : String)
  | txs (l : List Transaction)
  deriving DecidableEq

/-- A block of the chain, with the exact fields of the source class. -/
structure Block where
  index : Nat
  timestamp : String
  data : BlockData
  previousHash : String
  nonce : Nat
  hash : String
  deriving DecidableEq

/-- `JSON.stringify` of one transaction object, with the source's field order. -/
def serializeTx : Transaction → String
  | .vote v c ts =>
      "\x7b\"voterId\":\"" ++ v ++ "\",\"candidateId\":\"" ++ c ++
        "\",\"timestamp\":\"" ++ ts ++ "\",\"type\":\"vote\"\x7d"
  | .miningReward addr amt ts =>
      "\x7b\"fromAddress\":null,\"toAddress\":\"" ++ addr ++ "\",\"amount\":" ++
        toString amt ++ ",\"timestamp\":\"" ++ ts ++ "\",\"type\":\"miningReward\"\x7d"

/-- `JSON.stringify(this.data)`. -/
def serializeData : BlockData → String
  | .str s => "\"" ++ s ++ "\""
  | .txs l => "[" ++ String.intercalate "," (l.map serializeTx) ++ "]"

/-- The string the source hashes:
`this.index + this.previousHash + this.timestamp + JSON.stringify(this.data) + this.nonce`. -/
def hashInput (index : Nat) (previousHash timestamp : String) (data : BlockData)
    (nonce : Nat) : String :=
  toString index ++ previousHash ++ timestamp ++ serializeData data ++ toString nonce

/-- `Block.calculateHash`, with the SHA256 digest abstracted as `H`. -/
def calculateHash (H : String → String) (b : Block) : String :=
  H (hashInput b.index b.previousHash b.timestamp b.data b.nonce)

/-- The `Block` constructor on the default path (`nonce = 0`, `hash = null`,
so `this.hash = this.calculateHash()`). -/
def Block.make (H : String → String) (index : Nat) (timestamp : String)
    (data : BlockData) (previousHash : String) : Block :=
  { index := index, timestamp := timestamp, data := data, previousHash := previousHash,
    nonce := 0, hash := H (hashInput index previousHash timestamp data 0) }

/-- The full `Block` constructor: an explicit stored hash is kept when truthy
(`this.hash = hash || this.calculateHash()`); `null` or `""` recomputes. -/
def Block.construct (H : String → String) (index : Nat) (timestamp : String)
    (data : BlockData) (previousHash : String) (nonce : Nat)
    (storedHash : Option String) : Block :=
  match storedHash with
  | some h =>
      if h = "" then
        { index := index, timestamp := timestamp, data := data,
          previousHash := previousHash, nonce := nonce,
          hash := H (hashInput index previousHash timestamp data nonce) }
      else
        { index := index, timestamp := timestamp, data := data,
          previousHash := previousHash, nonce := nonce, hash := h }
  | none =>
      { index := index, timestamp := timestamp, data := data,
        previousHash := previousHash, nonce := nonce,
        hash := H (hashInput index previousHash timestamp data nonce) }

/-- `Array(difficulty + 1).join("0")`: the string of `difficulty` zeros. -/
def zeroString (d : Nat) : String :=
  String.mk (List.replicate d '0')

/-- One iteration of the proof-of-work loop body:
`this.nonce++; this.hash = this.calculateHash()`. -/
def mineStep (H : String → String) (b : Block) : Block :=
  { b with nonce := b.nonce + 1,
           hash := calculateHash H { b with nonce := b.nonce + 1 } }

/-- `Block.mineBlock`: loop while `this.hash.substring(0, difficulty)` differs
from the zero string, with explicit fuel bounding the number of iterations. -/
def mineLoop (H : String → String) (difficulty : Nat) : Nat → Block → Option Block
  | fuel, b =>
    if b.hash.take difficulty = zeroString difficulty then
      some b
    else
      match fuel with
      | 0 => none
      | f + 1 => mineLoop H difficulty f (mineStep H b)

/-- The pre-defined candidate roster seeded by the `Blockchain` constructor. -/
def initialCandidates : List Candidate :=
  [⟨"candidateA", "Alice Smith"⟩, ⟨"candidateB", "Bob Johnson"⟩,
   ⟨"candidateC", "Charlie Brown"⟩]

/-- The ledger state: the fields of the `Blockchain` class.  The JS `Set`s are
modelled as duplicate-free insertion-ordered lists (`setAdd` below inserts
only when absent, exactly as `Set.add`). -/
structure Blockchain where
  chain : List Block
  difficulty : Nat
  pendingTransactions : List Transaction
  miningReward : Nat
  votedUsers : List String
  registeredVoters : List String
  candidates : List Candidate
  isElectionOpen : Bool
  deriving DecidableEq

/-- The `Blockchain` constructor's in-memory initial state. -/
def Blockchain.new : Blockchain :=
  { chain := [], difficulty := 3, pendingTransactions := [], miningReward := 1,
    votedUsers := [], registeredVoters := [], candidates := initialCandidates,
    isElectionOpen := false }

/-- `Blockchain.createGenesisBlock`. -/
def createGenesisBlock (H : String → String) : Block :=
  Block.make H 0 "2023-01-01" (.str "Genesis Block (Election Start)") "0"

/-- The state right after startup against an empty store: the constructor
state with the freshly created genesis block pushed. -/
def genesisState (H : String → String) : Blockchain :=
  { Blockchain.new with chain := [createGenesisBlock H] }

/-- `Set.add`: insert only when not already present. -/
def setAdd (s : List String) (x : String) : List String :=
  if s.contains x then s else s ++ [x]

/-- The five admission failure kinds of `createVote`, in source order. -/
inductive VoteError where
  | electionClosed
  | invalidInput
  | unknownCandidate
  | voterNotRegistered
  | duplicateVote
  deriving DecidableEq

/-- `Blockchain.createVote`.  The source throws on failure before any state
mutation, so failures return the untouched state alongside the error. -/
def createVote (st : Blockchain) (voterId candidateId now : String) :
    Except VoteError Unit × Blockchain :=
  if !st.isElectionOpen then (.error .electionClosed, st)
  else if voterId == "" || candidateId == "" then (.error .invalidInput, st)
  else if !(st.candidates.any fun c => c.id == candidateId) then
    (.error .unknownCandidate, st)
  else if !(st.registeredVoters.contains voterId) then
    (.error .voterNotRegistered, st)
  else if st.votedUsers.contains voterId then (.error .duplicateVote, st)
  else
    (.ok (),
      { st with pendingTransactions :=
          st.pendingTransactions ++ [Transaction.vote voterId candidateId now] })

/-- Outcomes of `minePendingTransactions`: the no-op result, a successful
mine returning the sealed block, or the thrown block-save error. -/
inductive MineOutcome where
  | nothingToMine
  | mined (latestBlock : Block)
  | saveBlockFailed (message : String)
  deriving DecidableEq

/-- The transactions of a block, empty when `data` is not an array
(the source guards every scan with `Array.isArray`). -/
def blockTxs (b : Block) : List Transaction :=
  match b.data with
  | .txs l => l
  | .str _ => []

/-- One step of the `votedUsers` update after mining:
`if (trans.type === 'vote' && trans.voterId) this.votedUsers.add(trans.voterId)`. -/
def voteAdd (s : List String) (t : Transaction) : List String :=
  match t with
  | .vote v _ _ => if v = "" then s else setAdd s v
  | .miningReward _ _ _ => s

/-- JS truthiness of the optional `minerAddress` argument. -/
def minerGiven : Option String → Bool
  | none => false
  | some s => !(s == "")

/-- The reward transaction pushed into the emptied pool after a mine. -/
def rewardFor (addr : String) (amount : Nat) (now : String) : Transaction :=
  Transaction.miningReward addr amount now

/-- The block handed to the miner: `new Block(this.chain.length, now,
deep-copy of pendingTransactions, this.getLatestBlock().hash)`. -/
def newBlockFor (H : String → String) (st : Blockchain) (now : String)
    (latest : Block) : Block :=
  Block.make H st.chain.length now (.txs st.pendingTransactions) latest.hash

/-- `Blockchain.minePendingTransactions`.  `nowBlock`/`nowReward` are the two
`Date.now()` readings, `fuel` bounds the proof-of-work loop and `saveOk`
tells whether the Firestore write of the sealed block succeeds; `none` means
no result was produced (fuel ran out, or the chain was empty so
`getLatestBlock()` had no block to offer). -/
def minePendingTransactions (H : String → String) (st : Blockchain)
    (minerAddress : Option String) (nowBlock nowReward : String) (fuel : Nat)
    (saveOk : Bool) : Option (MineOutcome × Blockchain) :=
  if st.pendingTransactions.length = 0 then
    some (.nothingToMine, st)
  else
    match st.chain.getLast? with
    | none => none
    | some latest =>
      match mineLoop H st.difficulty fuel (newBlockFor H st nowBlock latest) with
      | none => none
      | some newBlock =>
        let st₁ := { st with chain := st.chain ++ [newBlock] }
        if !saveOk then
          some (.saveBlockFailed "Failed to save block to database.", st₁)
        else
          let pending₂ :=
            match minerAddress with
            | some addr =>
                if addr = "" then [] else [rewardFor addr st.miningReward nowReward]
            | none => []
          let st₂ := { st₁ with pendingTransactions := pending₂ }
          let st₃ := { st₂ with
            votedUsers := (blockTxs newBlock).foldl voteAdd st₂.votedUsers }
          some (.mined newBlock, st₃)

/-- Outcomes of `registerVoter`: the thrown empty-id error, the `false`
"already registered" return, and the `true` success return. -/
inductive RegisterOutcome where
  | invalidInput
  | alreadyRegistered
  | registered
  deriving DecidableEq

/-- `Blockchain.registerVoter`. -/
def registerVoter (st : Blockchain) (voterId : String) :
    RegisterOutcome × Blockchain :=
  if voterId = "" then (.invalidInput, st)
  else if st.registeredVoters.contains voterId then (.alreadyRegistered, st)
  else (.registered,
    { st with registeredVoters := st.registeredVoters ++ [voterId] })

/-- `Blockchain.setElectionStatus` (the non-boolean guard is enforced by the
type). -/
def setElectionStatus (st : Blockchain) (status : Bool) : Blockchain :=
  { st with isElectionOpen := status }

/-- JS object update `results[k] = (name, v)`: replace the entry when the key
exists, append it otherwise. -/
def setKey : List (String × String × Nat) → String → String → Nat →
    List (String × String × Nat)
  | [], k, n, v => [(k, n, v)]
  | e :: rest, k, n, v =>
      if e.1 = k then (k, n, v) :: rest else e :: setKey rest k n v

/-- JS truthiness of `results[k]`: the key is present. -/
def containsKey (m : List (String × String × Nat)) (k : String) : Bool :=
  m.any fun e => e.1 == k

/-- `results[k].votes++` on the (unique) entry with key `k`. -/
def bumpKey : List (String × String × Nat) → String →
    List (String × String × Nat)
  | [], _ => []
  | e :: rest, k =>
      if e.1 = k then (e.1, e.2.1, e.2.2 + 1) :: rest else e :: bumpKey rest k

/-- The per-transaction tally step: count a vote only when its candidate has
an entry in the result map. -/
def tallyTx (m : List (String × String × Nat)) (t : Transaction) :
    List (String × String × Nat) :=
  match t with
  | .vote _ c _ => if containsKey m c then bumpKey m c else m
  | .miningReward _ _ _ => m

/-- The per-block tally step (skips non-array `data`). -/
def tallyBlock (m : List (String × String × Nat)) (b : Block) :
    List (String × String × Nat) :=
  (blockTxs b).foldl tallyTx m

/-- The initial result map: one zero-vote entry per known candidate. -/
def initResults (cands : List Candidate) : List (String × String × Nat) :=
  cands.foldl (fun m c => setKey m c.id c.name 0) []

/-- `Blockchain.getElectionResults`. -/
def getElectionResults (st : Blockchain) : List (String × String × Nat) :=
  st.chain.foldl tallyBlock (initResults st.candidates)

/-- Total vote count reported by a result map. -/
def sumVotes (m : List (String × String × Nat)) : Nat :=
  (m.map fun e => e.2.2).sum

/-- Whether a transaction is a Vote transaction. -/
def isVoteTx : Transaction → Bool
  | .vote _ _ _ => true
  | .miningReward _ _ _ => false

/-- Number of Vote transactions stored across all blocks of the chain. -/
def countVoteTxs (chain : List Block) : Nat :=
  (chain.map fun b => (blockTxs b).countP isVoteTx).sum

/-- The loop body of `isChainValid` from index 1 on: each block must match
its recomputed hash and point at its predecessor's stored hash. -/
def validFrom (H : String → String) : Block → List Block → Bool
  | _, [] => true
  | prev, b :: rest =>
      (b.hash == calculateHash H b) && (b.previousHash == prev.hash) &&
        validFrom H b rest

/-- `Blockchain.isChainValid`: an empty chain is invalid, otherwise scan from
index 1. -/
def isChainValid (H : String → String) (chain : List Block) : Bool :=
  match chain with
  | [] => false
  | g :: rest => validFrom H g rest

/-- One state transition of the ledger engine: a vote admission, a mining
run that produced a result, a voter registration, or an election status
change. -/
inductive Step (H : String → String) : Blockchain → Blockchain → Prop
  | vote (st : Blockchain) (voterId candidateId now : String) :
      Step H st (createVote st voterId candidateId now).2
  | mine (st : Blockchain) (minerAddress : Option String)
      (nowBlock nowReward : String) (fuel : Nat) (saveOk : Bool)
      (out : MineOutcome) (st' : Blockchain)
      (h : minePendingTransactions H st minerAddress nowBlock nowReward fuel saveOk
            = some (out, st')) :
      Step H st st'
  | register (st : Blockchain) (voterId : String) :
      Step H st (registerVoter st voterId).2
  | status (st : Blockchain) (b : Bool) :
      Step H st (setElectionStatus st b)

/-- States reachable from the genesis-only startup state. -/
inductive Reach (H : String → String) : Blockchain → Prop
  | init : Reach H (genesisState H)
  | step {st st' : Blockchain} : Reach H st → Step H st st' → Reach H st'

/-- Structural soundness of a chain: indices ascend from 0, every stored hash
is the recomputed hash, and every non-genesis block links to its
predecessor's stored hash. -/
def chainSound (H : String → String) (chain : List Block) : Prop :=
  ∀ i, (hi : i < chain.length) → (hp : i - 1 < chain.length) →
    (chain.get ⟨i, hi⟩).index = i ∧
    (chain.get ⟨i, hi⟩).hash = calculateHash H (chain.get ⟨i, hi⟩) ∧
    (0 < i → (chain.get ⟨i, hi⟩).previousHash = (chain.get ⟨i - 1, hp⟩).hash)

/-- Well-formedness of a single stored transaction: every vote carries a
non-empty voter id and a candidate id from the current roster. -/
def txOk (cands : List Candidate) : Transaction → Prop
  | .vote v c _ => v ≠ "" ∧ (cands.any fun k => k.id == c) = true
  | .miningReward _ _ _ => True

/-- The inductive invariant of reachable ledger states. -/
structure Inv (H : String → String) (st : Blockchain) : Prop where
  sound : chainSound H st.chain
  chainNe : st.chain ≠ []
  cands : st.candidates = initialCandidates
  chainTxOk : ∀ b ∈ st.chain, ∀ t ∈ blockTxs b, txOk st.candidates t
  pendTxOk : ∀ t ∈ st.pendingTransactions, txOk st.candidates t

/-! Concrete hash functions, blocks and states used to instantiate the
theorems on executable inputs. -/

/-- The identity as a stand-in digest. -/
def Hid : String → String := fun s => s

/-- A digest that always answers with three zeros, so proof-of-work at the
default difficulty succeeds on the first check. -/
def Hzero : String → String := fun _ => "000"

/-- A digest that never produces leading zeros. -/
def Hdead : String → String := fun _ => "deadbeef"

/-- A digest that yields three leading zeros exactly when the hashed text
ends in `3`, so the proof-of-work loop stops at nonce 3. -/
def Hw : String → String := fun s =>
  if s.data.getLast? = some '3' then "000" else "111"

/-- A block rebuilt with an explicit (tampered) stored hash, as the
database-loading path does. -/
def badBlock : Block := Block.construct Hdead 0 "2023-01-01" (.str "x") "0" 0 (some "000")

/-- A freshly constructed block to be mined under `Hw`. -/
def c3block : Block := Block.make Hw 0 "t" (.str "d") "p"

/-- The sealed form of `c3block`: nonce 3, hash `"000"`. -/
def c3mined : Block := { c3block with nonce := 3, hash := "000" }

/-- A handcrafted open-election state with one eligible voter `v1` and one
voter `v2` who has already voted. -/
def stOpen : Blockchain :=
  { genesisState Hid with
      isElectionOpen := true,
      registeredVoters := ["v1", "v2"],
      votedUsers := ["v2"] }

/-- Startup state under `Hzero`. -/
def c4s0 : Blockchain := genesisState Hzero

/-- After registering voter `v1`. -/
def c4s1 : Blockchain := (registerVoter c4s0 "v1").2

/-- After opening the election. -/
def c4s2 : Blockchain := setElectionStatus c4s1 true

/-- After admitting `v1`'s vote for `candidateA`. -/
def c4state : Blockchain := (createVote c4s2 "v1" "candidateA" "5").2

/-- A full mining run from `c4state`. -/
def c4run : Option (MineOutcome × Blockchain) :=
  minePendingTransactions Hzero c4state (some "miner1") "8" "9" 0 true

/-- The block that run seals. -/
def c4block : Block := newBlockFor Hzero c4state "8" (createGenesisBlock Hzero)

/-- The state that run ends in. -/
def c4after : Blockchain := (c4run.getD (.nothingToMine, c4s0)).2

/-- A difficulty-0 state with one pending vote, for exercising the
persistence-failure path. -/
def c10state : Blockchain :=
  { genesisState Hid with
      difficulty := 0,
      pendingTransactions := [Transaction.vote "v1" "candidateA" "5"] }

/-- The block mined from `c10state`. -/
def c10block : Block := newBlockFor Hid c10state "8" (createGenesisBlock Hid)

/-- A correctly sealed-looking successor of the genesis block under `Hid`. -/
def c5block : Block := Block.make Hid 1 "t" (.str "d") (createGenesisBlock Hid).hash

/-- A two-block chain that passes every check of `isChainValid`. -/
def c5chain : List Block := [createGenesisBlock Hid, c5block]

/-- The genesis block with its data tampered but its stored hash kept. -/
def c9genesis : Block := { createGenesisBlock Hid with data := .str "tampered" }

/-! ### Helper lemmas -/

theorem contains_iff_mem (s : List String) (x : String) :
    s.contains x = true ↔ x ∈ s := by
  simp [List.contains, List.elem_iff]

theorem mineStep_hash (H : String → String) (b : Block) :
    (mineStep H b).hash = calculateHash H (mineStep H b) := rfl

/-- Everything `mineLoop` guarantees when it returns a block: the searched
fields are untouched, the hash meets the difficulty prefix, and the stored
hash is the recomputed hash provided it was on entry (it always is after at
least one iteration). -/
theorem mineLoop_some (H : String → String) (d : Nat) :
    ∀ (fuel : Nat) (b b' : Block), mineLoop H d fuel b = some b' →
      b'.index = b.index ∧ b'.previousHash = b.previousHash ∧
      b'.timestamp = b.timestamp ∧ b'.data = b.data ∧
      b'.hash.take d = zeroString d ∧
      (b.hash = calculateHash H b → b'.hash = calculateHash H b') := by
  intro fuel
  induction fuel with
  | zero =>
      intro b b' h
      simp only [mineLoop] at h
      split at h
      · cases h
        exact ⟨rfl, rfl, rfl, rfl, by assumption, fun hh => hh⟩
      · cases h
  | succ f ih =>
      intro b b' h
      simp only [mineLoop] at h
      split at h
      · cases h
        exact ⟨rfl, rfl, rfl, rfl, by assumption, fun hh => hh⟩
      · have h' := ih (mineStep H b) b' h
        exact ⟨h'.1, h'.2.1, h'.2.2.1, h'.2.2.2.1, h'.2.2.2.2.1,
          fun _ => h'.2.2.2.2.2 (mineStep_hash H b)⟩

/-! ### Claim C3 -/

/-- Claim C3 fails as stated: on a block carrying a tampered stored hash
that already meets the difficulty prefix — constructible through the
explicit-stored-hash constructor path the database loader uses —
`mineBlock(3)` terminates immediately, yet the resulting stored hash
differs from the hash recomputed from the block's fields. -/
theorem mineBlock_roundtrip_counterexample :
    mineLoop Hdead 3 5 badBlock = some badBlock ∧
      badBlock.hash ≠ calculateHash Hdead badBlock :=
  ⟨by decide, by decide⟩

/-- Claim C3 (amended): for every block whose stored hash equals its
recomputed hash on entry — as holds for every block built by the constructor
without an explicit stored hash, in particular every block the code mines —
whenever `mineBlock(d)` terminates, the final hash string begins with `d`
zero characters and equals the hash recomputed from the block's index,
previous hash, timestamp, serialized transactions and final nonce. -/
theorem mineBlock_roundtrip (H : String → String) (d fuel : Nat) (b b' : Block)
    (hstart : b.hash = calculateHash H b)
    (hrun : mineLoop H d fuel b = some b') :
    b'.hash.take d = zeroString d ∧ b'.hash = calculateHash H b' := by
  have h := mineLoop_some H d fuel b b' hrun
  exact ⟨h.2.2.2.2.1, h.2.2.2.2.2 hstart⟩

/-- Witness for the amended C3 on a concrete run that takes three nonce
increments before `Hw` yields the required prefix. -/
theorem mineBlock_roundtrip_witness :
    c3block.hash = calculateHash Hw c3block ∧
    mineLoop Hw 3 5 c3block = some c3mined ∧
    (c3mined.hash.take 3 = zeroString 3 ∧ c3mined.hash = calculateHash Hw c3mined) :=
  ⟨rfl, by decide, mineBlock_roundtrip Hw 3 5 c3block c3mined rfl (by decide)⟩

/-! ### Claim C1 -/

/-- Claim C1: the five admission checks of `createVote` apply in the fixed
source order with the first failing check determining the error; whenever
the election is closed the call fails with `electionClosed` regardless of
every other input and state component; when all five checks pass the call
succeeds. -/
theorem createVote_check_order (st : Blockchain) (v c now : String) :
    (st.isElectionOpen = false →
      (createVote st v c now).1 = .error .electionClosed) ∧
    (st.isElectionOpen = true → (v = "" ∨ c = "") →
      (createVote st v c now).1 = .error .invalidInput) ∧
    (st.isElectionOpen = true → v ≠ "" → c ≠ "" →
      (st.candidates.any fun k => k.id == c) = false →
      (createVote st v c now).1 = .error .unknownCandidate) ∧
    (st.isElectionOpen = true → v ≠ "" → c ≠ "" →
      (st.candidates.any fun k => k.id == c) = true →
      v ∉ st.registeredVoters →
      (createVote st v c now).1 = .error .voterNotRegistered) ∧
    (st.isElectionOpen = true → v ≠ "" → c ≠ "" →
      (st.candidates.any fun k => k.id == c) = true →
      v ∈ st.registeredVoters → v ∈ st.votedUsers →
      (createVote st v c now).1 = .error .duplicateVote) ∧
    (st.isElectionOpen = true → v ≠ "" → c ≠ "" →
      (st.candidates.any fun k => k.id == c) = true →
      v ∈ st.registeredVoters → v ∉ st.votedUsers →
      (createVote st v c now).1 = .ok ()) := by
  refine ⟨fun h1 => ?_, fun h1 h2 => ?_, fun h1 h2 h3 h4 => ?_,
    fun h1 h2 h3 h4 h5 => ?_, fun h1 h2 h3 h4 h5 h6 => ?_,
    fun h1 h2 h3 h4 h5 h6 => ?_⟩
  · simp [createVote, h1]
  · rcases h2 with h2 | h2 <;> simp [createVote, h1, h2]
  · simp [createVote, h1, h2, h3, h4]
  · simp [createVote, h1, h2, h3, h4, h5]
  · simp [createVote, h1, h2, h3, h4, h5, h6]
  · simp [createVote, h1, h2, h3, h4, h5, h6]

/-- Witness for C1: a closed election rejects with `electionClosed`; in the
open state `stOpen` the returning voter `v2` is rejected with
`duplicateVote` while the eligible `v1` succeeds. -/
theorem createVote_check_order_witness :
    ((genesisState Hid).isElectionOpen = false ∧
      (createVote (genesisState Hid) "v1" "candidateA" "7").1 =
        .error .electionClosed) ∧
    ("v2" ∈ stOpen.votedUsers ∧
      (createVote stOpen "v2" "candidateA" "7").1 = .error .duplicateVote) ∧
    (createVote stOpen "v1" "candidateA" "7").1 = .ok () :=
  ⟨⟨rfl, (createVote_check_order (genesisState Hid) "v1" "candidateA" "7").1 rfl⟩,
    ⟨by decide, (createVote_check_order stOpen "v2" "candidateA" "7").2.2.2.2.1 rfl
      (by decide) (by decide) (by decide) (by decide) (by decide)⟩,
    (createVote_check_order stOpen "v1" "candidateA" "7").2.2.2.2.2 rfl
      (by decide) (by decide) (by decide) (by decide) (by decide)⟩

/-! ### Claim C6 -/

/-- Claim C6: whenever `createVote` fails the whole state is unchanged;
when it succeeds, exactly one vote transaction carrying the given ids is
appended at the tail of the pending pool and nothing else changes — in
particular the voter's id is not in `votedUsers`. -/
theorem createVote_frame (st : Blockchain) (v c now : String) :
    (∀ e : VoteError, (createVote st v c now).1 = .error e →
      (createVote st v c now).2 = st) ∧
    ((createVote st v c now).1 = .ok () →
      (createVote st v c now).2 =
        { st with pendingTransactions :=
            st.pendingTransactions ++ [Transaction.vote v c now] } ∧
      v ∉ (createVote st v c now).2.votedUsers) := by
  unfold createVote
  split
  · exact ⟨fun _ _ => rfl, fun h => by simp at h⟩
  · split
    · exact ⟨fun _ _ => rfl, fun h => by simp at h⟩
    · split
      · exact ⟨fun _ _ => rfl, fun h => by simp at h⟩
      · split
        · exact ⟨fun _ _ => rfl, fun h => by simp at h⟩
        · split
          · exact ⟨fun _ _ => rfl, fun h => by simp at h⟩
          · next h5 =>
              refine ⟨fun e h => by simp at h, fun _ => ⟨rfl, fun hmem => ?_⟩⟩
              exact h5 ((contains_iff_mem _ _).mpr hmem)

/-- Witness for C6: the closed-election failure leaves the genesis state
untouched, and the successful admission from `stOpen` appends exactly the
one vote. -/
theorem createVote_frame_witness :
    (createVote (genesisState Hid) "v1" "candidateA" "7").2 = genesisState Hid ∧
    ((createVote stOpen "v1" "candidateA" "7").2 =
      { stOpen with pendingTransactions :=
          stOpen.pendingTransactions ++ [Transaction.vote "v1" "candidateA" "7"] } ∧
      "v1" ∉ (createVote stOpen "v1" "candidateA" "7").2.votedUsers) :=
  ⟨(createVote_frame (genesisState Hid) "v1" "candidateA" "7").1
      .electionClosed rfl,
    (createVote_frame stOpen "v1" "candidateA" "7").2 rfl⟩

/-! ### Claim C8 -/

/-- Claim C8: `registerVoter` rejects an empty id with `invalidInput` and no
change, reports the distinct non-error `alreadyRegistered` outcome with no
change for a known id, and otherwise appends the id to `registeredVoters`
and succeeds. -/
theorem registerVoter_spec (st : Blockchain) (v : String) :
    (v = "" → registerVoter st v = (.invalidInput, st)) ∧
    (v ≠ "" → v ∈ st.registeredVoters →
      registerVoter st v = (.alreadyRegistered, st)) ∧
    (v ≠ "" → v ∉ st.registeredVoters →
      registerVoter st v =
        (.registered,
          { st with registeredVoters := st.registeredVoters ++ [v] })) := by
  refine ⟨fun h => ?_, fun h1 h2 => ?_, fun h1 h2 => ?_⟩ <;>
    simp [registerVoter, *]

/-- Witness for C8: all three outcomes on the concrete state `stOpen`. -/
theorem registerVoter_spec_witness :
    registerVoter stOpen "" = (.invalidInput, stOpen) ∧
    registerVoter stOpen "v1" = (.alreadyRegistered, stOpen) ∧
    registerVoter stOpen "ghost" =
      (.registered,
        { stOpen with registeredVoters := stOpen.registeredVoters ++ ["ghost"] }) :=
  ⟨(registerVoter_spec stOpen "").1 rfl,
    (registerVoter_spec stOpen "v1").2.1 (by decide) (by decide),
    (registerVoter_spec stOpen "ghost").2.2 (by decide) (by decide)⟩

/-! ### Chain soundness machinery -/

theorem chainSound_append (H : String → String) (c : List Block) (b : Block)
    (hc : chainSound H c) (hidx : b.index = c.length)
    (hhash : b.hash = calculateHash H b)
    (hlink : ∀ hne : c ≠ [], b.previousHash = (c.getLast hne).hash) :
    chainSound H (c ++ [b]) := by
  intro i hi hp
  simp only [List.get_eq_getElem, List.length_append, List.length_cons,
    List.length_nil] at hi hp ⊢
  rcases Nat.lt_succ_iff_lt_or_eq.mp (by simpa using hi) with hlt | heq
  · have hp' : i - 1 < c.length := by omega
    rw [List.getElem_append_left hlt, List.getElem_append_left hp']
    have h := hc i hlt hp'
    simpa only [List.get_eq_getElem] using h
  · subst heq
    rw [List.getElem_concat_length c b c.length rfl]
    refine ⟨hidx, hhash, fun hpos => ?_⟩
    have hne : c ≠ [] := by
      intro hnil
      subst hnil
      simp at hpos
    have hp'' : c.length - 1 < c.length := by omega
    rw [List.getElem_append_left hp'', hlink hne, List.getLast_eq_getElem c hne]

/-- The freshly constructed block's stored hash is its recomputed hash. -/
theorem newBlockFor_hash (H : String → String) (st : Blockchain) (now : String)
    (latest : Block) :
    (newBlockFor H st now latest).hash =
      calculateHash H (newBlockFor H st now latest) := rfl

theorem inv_init (H : String → String) : Inv H (genesisState H) := by
  refine ⟨?_, by simp [genesisState], rfl, ?_, ?_⟩
  · intro i hi hp
    have hi0 : i = 0 := by
      simp [genesisState] at hi
      omega
    subst hi0
    exact ⟨rfl, rfl, fun h => absurd h (by omega)⟩
  · intro b hb t ht
    have hb' : b = createGenesisBlock H := by
      simpa [genesisState] using hb
    subst hb'
    simp [blockTxs, createGenesisBlock, Block.make] at ht
  · intro t ht
    simp [genesisState, Blockchain.new] at ht

theorem inv_createVote (H : String → String) (st : Blockchain)
    (v c now : String) (hI : Inv H st) : Inv H (createVote st v c now).2 := by
  unfold createVote
  split
  · exact hI
  · next hopen =>
    split
    · exact hI
    · next hvc =>
      split
      · exact hI
      · next hcand =>
        split
        · exact hI
        · split
          · exact hI
          · refine ⟨hI.sound, hI.chainNe, hI.cands, hI.chainTxOk, ?_⟩
            intro t ht
            rcases List.mem_append.mp ht with ht | ht
            · exact hI.pendTxOk t ht
            · have ht' : t = Transaction.vote v c now := by simpa using ht
              subst ht'
              have hv : v ≠ "" := by
                intro hv0
                exact hvc (by simp [hv0])
              have hc : (st.candidates.any fun k => k.id == c) = true := by
                revert hcand
                simp
              exact ⟨hv, hc⟩

theorem inv_registerVoter (H : String → String) (st : Blockchain) (v : String)
    (hI : Inv H st) : Inv H (registerVoter st v).2 := by
  unfold registerVoter
  split
  · exact hI
  · split
    · exact hI
    · exact ⟨hI.sound, hI.chainNe, hI.cands, hI.chainTxOk, hI.pendTxOk⟩

theorem inv_setElectionStatus (H : String → String) (st : Blockchain) (b : Bool)
    (hI : Inv H st) : Inv H (setElectionStatus st b) :=
  ⟨hI.sound, hI.chainNe, hI.cands, hI.chainTxOk, hI.pendTxOk⟩

theorem inv_mine (H : String → String) (st : Blockchain) (a : Option String)
    (n₁ n₂ : String) (fuel : Nat) (saveOk : Bool) (out : MineOutcome)
    (st' : Blockchain) (hI : Inv H st)
    (h : minePendingTransactions H st a n₁ n₂ fuel saveOk = some (out, st')) :
    Inv H st' := by
  unfold minePendingTransactions at h
  split at h
  · cases h
    exact hI
  · split at h
    · cases h
    · rename_i latest hl
      split at h
      · cases h
      · rename_i nb hm
        obtain ⟨hidx, hprev, hts, hdata, hzero, hhash⟩ :=
          mineLoop_some H st.difficulty fuel (newBlockFor H st n₁ latest) nb hm
        have hhash' : nb.hash = calculateHash H nb :=
          hhash (newBlockFor_hash H st n₁ latest)
        have hlatest : latest = st.chain.getLast hI.chainNe := by
          have := List.getLast?_eq_getLast st.chain hI.chainNe
          rw [hl] at this
          exact Option.some_injective _ this
        have hsound : chainSound H (st.chain ++ [nb]) := by
          refine chainSound_append H st.chain nb hI.sound hidx hhash' ?_
          intro hne
          rw [hprev, hlatest]
          rfl
        have hbtxs : blockTxs nb = st.pendingTransactions := by
          simp [blockTxs, hdata, newBlockFor, Block.make]
        have hchainTx : ∀ b ∈ st.chain ++ [nb], ∀ t ∈ blockTxs b,
            txOk st.candidates t := by
          intro b hb t ht
          rcases List.mem_append.mp hb with hb | hb
          · exact hI.chainTxOk b hb t ht
          · have hb' : b = nb := by simpa using hb
            subst hb'
            rw [hbtxs] at ht
            exact hI.pendTxOk t ht
        have hne' : st.chain ++ [nb] ≠ [] := by simp
        split at h
        · cases h
          exact ⟨hsound, hne', hI.cands, hchainTx, hI.pendTxOk⟩
        · cases h
          refine ⟨hsound, hne', hI.cands, hchainTx, ?_⟩
          intro t ht
          rcases ha : a with _ | addr
          · rw [ha] at ht
            simp at ht
          · rw [ha] at ht
            by_cases haddr : addr = ""
            · simp [haddr] at ht
            · simp [haddr, rewardFor] at ht
              subst ht
              exact trivial

theorem inv_step (H : String → String) {st st' : Blockchain} (hI : Inv H st)
    (hs : Step H st st') : Inv H st' := by
  cases hs with
  | vote v c now => exact inv_createVote H st v c now hI
  | mine a n₁ n₂ fuel saveOk out _ h =>
      exact inv_mine H st a n₁ n₂ fuel saveOk out st' hI h
  | register v => exact inv_registerVoter H st v hI
  | status b => exact inv_setElectionStatus H st b hI

theorem reach_inv (H : String → String) {st : Blockchain} (hR : Reach H st) :
    Inv H st := by
  induction hR with
  | init => exact inv_init H
  | step hR hs ih => exact inv_step H ih hs

/-- A concrete reachable state with one pending vote: register `v1`, open
the election, admit `v1`'s vote. -/
theorem reach_c4state : Reach Hzero c4state :=
  Reach.step
    (Reach.step (Reach.step Reach.init (Step.register c4s0 "v1"))
      (Step.status c4s1 true))
    (Step.vote c4s2 "v1" "candidateA" "5")

/-- The concrete mining run from `c4state` seals `c4block` and ends in
`c4after`. -/
theorem mine_c4_eq :
    minePendingTransactions Hzero c4state (some "miner1") "8" "9" 0 true =
      some (.mined c4block, c4after) := by decide

/-- `c4after` is reachable through an actual mining step. -/
theorem reach_c4after : Reach Hzero c4after :=
  Reach.step reach_c4state
    (Step.mine c4state (some "miner1") "8" "9" 0 true (.mined c4block) c4after
      mine_c4_eq)

/-! ### Claim C2 -/

/-- Claim C2: in every state reachable from the genesis-only chain by
admissions and sealings (together with the admin operations), the chain
satisfies: indices ascend by exactly 1 from 0, every stored hash equals the
hash recomputed from the block's stored fields, and every block at index
`i > 0` stores its predecessor's hash as `previousHash`. -/
theorem reachable_chainSound (H : String → String) (st : Blockchain)
    (hR : Reach H st) : chainSound H st.chain :=
  (reach_inv H hR).sound

/-- Witness for C2 at the reachable two-block state `c4after`, produced by a
concrete mining step on top of the genesis block. -/
theorem reachable_chainSound_witness :
    Reach Hzero c4after ∧ chainSound Hzero c4after.chain :=
  ⟨reach_c4after, reachable_chainSound Hzero c4after reach_c4after⟩

/-! ### Claims C5 and C9 -/

/-- The scanning loop of `isChainValid` accepts exactly the suffixes whose
blocks all match their recomputed hash and link to their predecessor. -/
theorem validFrom_iff (H : String → String) :
    ∀ (rest : List Block) (g : Block),
      validFrom H g rest = true ↔
        ∀ j, (hj : j < rest.length) →
          (rest.get ⟨j, hj⟩).hash = calculateHash H (rest.get ⟨j, hj⟩) ∧
          (rest.get ⟨j, hj⟩).previousHash =
            ((g :: rest).get ⟨j, Nat.lt_succ_of_lt hj⟩).hash := by
  intro rest
  induction rest with
  | nil =>
      intro g
      simp [validFrom]
  | cons b rs ih =>
      intro g
      constructor
      · intro h j hj
        simp only [validFrom, Bool.and_eq_true, beq_iff_eq] at h
        obtain ⟨⟨hb1, hb2⟩, hrest⟩ := h
        match j with
        | 0 => exact ⟨hb1, hb2⟩
        | j + 1 =>
            have hj' : j < rs.length := by simpa using hj
            exact (ih b).mp hrest j hj'
      · intro h
        simp only [validFrom, Bool.and_eq_true, beq_iff_eq]
        refine ⟨⟨(h 0 (by simp)).1, (h 0 (by simp)).2⟩, ?_⟩
        exact (ih b).mpr fun j hj => h (j + 1) (by simpa using hj)

/-- Claim C5: `isChainValid` is false on the empty chain, true on the
genesis-only chain, and on every non-empty chain it is true exactly when
every block from index 1 on matches its recomputed hash and stores its
predecessor's hash (it is a pure function of the chain, so it mutates
nothing). -/
theorem isChainValid_spec (H : String → String) :
    isChainValid H [] = false ∧
    isChainValid H [createGenesisBlock H] = true ∧
    (∀ chain : List Block, chain ≠ [] →
      (isChainValid H chain = true ↔
        ∀ i, (hi : i < chain.length) → (hp : i - 1 < chain.length) → 1 ≤ i →
          (chain.get ⟨i, hi⟩).hash = calculateHash H (chain.get ⟨i, hi⟩) ∧
          (chain.get ⟨i, hi⟩).previousHash =
            (chain.get ⟨i - 1, hp⟩).hash)) := by
  refine ⟨rfl, rfl, ?_⟩
  intro chain hne
  match chain with
  | [] => exact absurd rfl hne
  | g :: rest =>
      show validFrom H g rest = true ↔ _
      rw [validFrom_iff H rest g]
      constructor
      · intro h i hi hp h1
        match i, h1 with
        | i + 1, _ =>
            have hj : i < rest.length := by simpa using hi
            exact h i hj
      · intro h j hj
        exact h (j + 1) (by simpa using hj)
          (by simpa using Nat.lt_succ_of_lt hj) (by omega)

/-- Witness for C5: the characterization applied to the concrete two-block
chain `c5chain`, which `isChainValid` accepts. -/
theorem isChainValid_spec_witness :
    c5chain ≠ [] ∧ isChainValid Hid c5chain = true ∧
    (∀ i, (hi : i < c5chain.length) → (hp : i - 1 < c5chain.length) → 1 ≤ i →
      (c5chain.get ⟨i, hi⟩).hash = calculateHash Hid (c5chain.get ⟨i, hi⟩) ∧
      (c5chain.get ⟨i, hi⟩).previousHash = (c5chain.get ⟨i - 1, hp⟩).hash) :=
  ⟨by decide, by decide,
    ((isChainValid_spec Hid).2.2 c5chain (by decide)).mp (by decide)⟩

/-- Claim C9: `isChainValid` never recomputes the genesis block's hash: for
every chain whose blocks from index 1 on pass the recomputation and linkage
checks, it returns true even when the genesis block's stored hash differs
from its recomputed hash, so genesis tampering goes undetected. -/
theorem isChainValid_skips_genesis (H : String → String) (g : Block)
    (rest : List Block) (htamper : g.hash ≠ calculateHash H g)
    (hrest : ∀ j, (hj : j < rest.length) →
      (rest.get ⟨j, hj⟩).hash = calculateHash H (rest.get ⟨j, hj⟩) ∧
      (rest.get ⟨j, hj⟩).previousHash =
        ((g :: rest).get ⟨j, Nat.lt_succ_of_lt hj⟩).hash) :
    isChainValid H (g :: rest) = true := by
  show validFrom H g rest = true
  exact (validFrom_iff H rest g).mpr hrest

/-- Witness for C9: the genesis block with tampered data but unchanged
stored hash is still accepted. -/
theorem isChainValid_skips_genesis_witness :
    c9genesis.hash ≠ calculateHash Hid c9genesis ∧
    isChainValid Hid [c9genesis] = true :=
  ⟨by decide, isChainValid_skips_genesis Hid c9genesis [] (by decide)
    fun j hj => absurd hj (by simp)⟩

/-! ### Tally machinery for claim C7 -/

theorem containsKey_nil (k : String) : containsKey [] k = false := rfl

theorem containsKey_cons (e : String × String × Nat)
    (l : List (String × String × Nat)) (k : String) :
    containsKey (e :: l) k = ((e.1 == k) || containsKey l k) := rfl

theorem sumVotes_nil : sumVotes [] = 0 := rfl

theorem sumVotes_cons (e : String × String × Nat)
    (l : List (String × String × Nat)) :
    sumVotes (e :: l) = e.2.2 + sumVotes l := rfl

theorem containsKey_setKey (m : List (String × String × Nat)) (k n : String)
    (v : Nat) (k' : String) :
    containsKey (setKey m k n v) k' = true ↔
      (containsKey m k' = true ∨ k = k') := by
  induction m with
  | nil =>
      simp [setKey, containsKey_cons, containsKey_nil, beq_iff_eq]
  | cons e rest ih =>
      simp only [setKey]
      split
      · next he =>
          simp only [containsKey_cons, Bool.or_eq_true, beq_iff_eq, he]
          tauto
      · simp only [containsKey_cons, Bool.or_eq_true, ih]
        tauto

theorem containsKey_bumpKey (m : List (String × String × Nat)) (k k' : String) :
    containsKey (bumpKey m k) k' = containsKey m k' := by
  induction m with
  | nil => rfl
  | cons e rest ih =>
      simp only [bumpKey]
      split
      · next he => simp [containsKey_cons, he]
      · simp [containsKey_cons, ih]

theorem sumVotes_bumpKey (m : List (String × String × Nat)) (k : String)
    (h : containsKey m k = true) :
    sumVotes (bumpKey m k) = sumVotes m + 1 := by
  induction m with
  | nil => simp [containsKey_nil] at h
  | cons e rest ih =>
      simp only [bumpKey]
      split
      · simp only [sumVotes_cons]
        omega
      · next he =>
          simp only [containsKey_cons, Bool.or_eq_true, beq_iff_eq] at h
          rcases h with h | h
          · exact absurd h he
          · simp only [sumVotes_cons, ih h]
            omega

theorem containsKey_tallyTx (m : List (String × String × Nat))
    (t : Transaction) (k : String) :
    containsKey (tallyTx m t) k = containsKey m k := by
  cases t with
  | vote v c ts =>
      simp only [tallyTx]
      split
      · exact containsKey_bumpKey m c k
      · rfl
  | miningReward addr amt ts => rfl

theorem containsKey_foldl_tallyTx (l : List Transaction)
    (m : List (String × String × Nat)) (k : String) :
    containsKey (l.foldl tallyTx m) k = containsKey m k := by
  induction l generalizing m with
  | nil => rfl
  | cons t rest ih => rw [List.foldl_cons, ih, containsKey_tallyTx]

theorem containsKey_foldl_tallyBlock (blocks : List Block)
    (m : List (String × String × Nat)) (k : String) :
    containsKey (blocks.foldl tallyBlock m) k = containsKey m k := by
  induction blocks generalizing m with
  | nil => rfl
  | cons b rest ih =>
      rw [List.foldl_cons, ih]
      exact containsKey_foldl_tallyTx (blockTxs b) m k

theorem sumVotes_foldl_tallyTx (l : List Transaction)
    (m : List (String × String × Nat))
    (hall : ∀ v c ts, Transaction.vote v c ts ∈ l → containsKey m c = true) :
    sumVotes (l.foldl tallyTx m) = sumVotes m + l.countP isVoteTx := by
  induction l generalizing m with
  | nil => simp
  | cons t rest ih =>
      cases t with
      | vote v c ts =>
          have hc : containsKey m c = true := hall v c ts (List.mem_cons_self _ _)
          rw [List.foldl_cons]
          have harm : tallyTx m (Transaction.vote v c ts) = bumpKey m c := by
            simp only [tallyTx, hc, if_true]
          rw [harm, ih (bumpKey m c) ?hrest, sumVotes_bumpKey m c hc,
            List.countP_cons]
          · simp [isVoteTx]
            omega
          case hrest =>
            intro v' c' ts' hm
            rw [containsKey_bumpKey]
            exact hall v' c' ts' (List.mem_cons_of_mem _ hm)
      | miningReward addr amt ts =>
          rw [List.foldl_cons]
          have harm : tallyTx m (Transaction.miningReward addr amt ts) = m := rfl
          rw [harm, ih m fun v' c' ts' hm =>
            hall v' c' ts' (List.mem_cons_of_mem _ hm), List.countP_cons]
          simp [isVoteTx]

theorem countVoteTxs_cons (b : Block) (rest : List Block) :
    countVoteTxs (b :: rest) =
      (blockTxs b).countP isVoteTx + countVoteTxs rest := by
  simp [countVoteTxs]

theorem sumVotes_foldl_tallyBlock (blocks : List Block)
    (m : List (String × String × Nat))
    (hall : ∀ b ∈ blocks, ∀ v c ts,
      Transaction.vote v c ts ∈ blockTxs b → containsKey m c = true) :
    sumVotes (blocks.foldl tallyBlock m) = sumVotes m + countVoteTxs blocks := by
  induction blocks generalizing m with
  | nil => simp [countVoteTxs]
  | cons b rest ih =>
      rw [List.foldl_cons]
      have hstep : tallyBlock m b = (blockTxs b).foldl tallyTx m := rfl
      rw [hstep, ih ((blockTxs b).foldl tallyTx m) ?hrest,
        sumVotes_foldl_tallyTx (blockTxs b) m (hall b (List.mem_cons_self _ _)),
        countVoteTxs_cons]
      · omega
      case hrest =>
        intro b' hb' v c ts ht
        rw [containsKey_foldl_tallyTx]
        exact hall b' (List.mem_cons_of_mem _ hb') v c ts ht

theorem mem_setKey (m : List (String × String × Nat)) (k n : String) (v : Nat)
    (e : String × String × Nat) (h : e ∈ setKey m k n v) :
    e ∈ m ∨ e = (k, n, v) := by
  induction m with
  | nil =>
      simp only [setKey] at h
      simp at h
      exact Or.inr h
  | cons x rest ih =>
      simp only [setKey] at h
      split at h
      · rcases List.mem_cons.mp h with h | h
        · exact Or.inr h
        · exact Or.inl (List.mem_cons_of_mem _ h)
      · rcases List.mem_cons.mp h with h | h
        · exact Or.inl (h ▸ List.mem_cons_self _ _)
        · rcases ih h with h | h
          · exact Or.inl (List.mem_cons_of_mem _ h)
          · exact Or.inr h

theorem initResults_zero (cands : List Candidate) :
    ∀ e ∈ initResults cands, e.2.2 = 0 := by
  suffices h : ∀ (cs : List Candidate) (m : List (String × String × Nat)),
      (∀ e ∈ m, e.2.2 = 0) →
      ∀ e ∈ cs.foldl (fun m c => setKey m c.id c.name 0) m, e.2.2 = 0 by
    exact h cands [] (by simp)
  intro cs
  induction cs with
  | nil => intro m hm e he; exact hm e he
  | cons c rest ih =>
      intro m hm e he
      refine ih (setKey m c.id c.name 0) ?_ e he
      intro x hx
      rcases mem_setKey m c.id c.name 0 x hx with h | h
      · exact hm x h
      · rw [h]

theorem sumVotes_zero (m : List (String × String × Nat))
    (h : ∀ e ∈ m, e.2.2 = 0) : sumVotes m = 0 := by
  induction m with
  | nil => rfl
  | cons e rest ih =>
      rw [sumVotes_cons, h e (List.mem_cons_self _ _),
        ih fun x hx => h x (List.mem_cons_of_mem _ hx)]

theorem containsKey_initResults (cands : List Candidate) (k : String) :
    containsKey (initResults cands) k = true ↔ ∃ c ∈ cands, c.id = k := by
  suffices h : ∀ (cs : List Candidate) (m : List (String × String × Nat)),
      (containsKey (cs.foldl (fun m c => setKey m c.id c.name 0) m) k = true ↔
        containsKey m k = true ∨ ∃ c ∈ cs, c.id = k) by
    rw [initResults, h cands []]
    simp [containsKey_nil]
  intro cs
  induction cs with
  | nil => intro m; simp
  | cons c rest ih =>
      intro m
      rw [List.foldl_cons, ih (setKey m c.id c.name 0)]
      rw [containsKey_setKey]
      simp only [List.mem_cons]
      constructor
      · rintro ((h | h) | ⟨x, hx, rfl⟩)
        · exact Or.inl h
        · exact Or.inr ⟨c, Or.inl rfl, h⟩
        · exact Or.inr ⟨x, Or.inr hx, rfl⟩
      · rintro (h | ⟨x, hx | hx, rfl⟩)
        · exact Or.inl (Or.inl h)
        · exact Or.inl (Or.inr (by rw [hx]))
        · exact Or.inr ⟨x, hx, rfl⟩

/-! ### Claim C7 -/

/-- Claim C7: in every reachable state, the result map of
`getElectionResults` has an entry for every known candidate, and the total
of the reported vote counts equals the number of Vote transactions stored
across all blocks of the chain. -/
theorem getElectionResults_spec (H : String → String) (st : Blockchain)
    (hR : Reach H st) :
    (∀ c ∈ st.candidates, containsKey (getElectionResults st) c.id = true) ∧
    sumVotes (getElectionResults st) = countVoteTxs st.chain := by
  have hI := reach_inv H hR
  constructor
  · intro c hc
    unfold getElectionResults
    rw [containsKey_foldl_tallyBlock]
    exact (containsKey_initResults st.candidates c.id).mpr ⟨c, hc, rfl⟩
  · unfold getElectionResults
    rw [sumVotes_foldl_tallyBlock st.chain (initResults st.candidates) ?hall,
      sumVotes_zero (initResults st.candidates) (initResults_zero st.candidates)]
    · omega
    case hall =>
      intro b hb v c ts ht
      obtain ⟨-, hany⟩ := hI.chainTxOk b hb (Transaction.vote v c ts) ht
      rw [containsKey_initResults]
      obtain ⟨x, hx, hxc⟩ := List.any_eq_true.mp hany
      exact ⟨x, hx, beq_iff_eq.mp hxc⟩

/-- Witness for C7 at the reachable state `c4after`, whose chain stores one
sealed vote; the tally indeed sums to 1. -/
theorem getElectionResults_spec_witness :
    Reach Hzero c4after ∧
    (∀ c ∈ c4after.candidates,
      containsKey (getElectionResults c4after) c.id = true) ∧
    sumVotes (getElectionResults c4after) = countVoteTxs c4after.chain ∧
    sumVotes (getElectionResults c4after) = 1 :=
  ⟨reach_c4after, (getElectionResults_spec Hzero c4after reach_c4after).1,
    (getElectionResults_spec Hzero c4after reach_c4after).2, by decide⟩

/-! ### Membership lemmas for the votedUsers update -/

theorem mem_setAdd_self (s : List String) (x : String) : x ∈ setAdd s x := by
  unfold setAdd
  split
  · next h => exact (contains_iff_mem s x).mp h
  · simp

theorem mem_setAdd_of_mem (s : List String) (x y : String) (h : x ∈ s) :
    x ∈ setAdd s y := by
  unfold setAdd
  split
  · exact h
  · exact List.mem_append.mpr (Or.inl h)

theorem mem_voteAdd_of_mem (s : List String) (t : Transaction) (x : String)
    (h : x ∈ s) : x ∈ voteAdd s t := by
  cases t with
  | vote v c ts =>
      simp only [voteAdd]
      split
      · exact h
      · exact mem_setAdd_of_mem s x v h
  | miningReward addr amt ts => exact h

theorem mem_foldl_voteAdd_of_mem (l : List Transaction) (s : List String)
    (x : String) (h : x ∈ s) : x ∈ l.foldl voteAdd s := by
  induction l generalizing s with
  | nil => exact h
  | cons t rest ih => exact ih (voteAdd s t) (mem_voteAdd_of_mem s t x h)

theorem mem_foldl_voteAdd (l : List Transaction) (s : List String)
    (v c ts : String) (hv : v ≠ "") (h : Transaction.vote v c ts ∈ l) :
    v ∈ l.foldl voteAdd s := by
  induction l generalizing s with
  | nil => cases h
  | cons t rest ih =>
      rcases List.mem_cons.mp h with h | h
      · subst h
        rw [List.foldl_cons]
        refine mem_foldl_voteAdd_of_mem rest _ v ?_
        show v ∈ voteAdd s (Transaction.vote v c ts)
        simp only [voteAdd, if_neg hv]
        exact mem_setAdd_self s v
      · exact ih (voteAdd s t) h

/-! ### Claim C4 -/

/-- Claim C4: on reachable states, `minePendingTransactions` with an empty
pool is a no-op returning the nothing-to-mine result; a successful run
appends exactly one block whose payload is the snapshot of the pool taken
before sealing, leaves the pool holding exactly one reward transaction when
a (non-empty) miner address was given and nothing otherwise, never places
that reward in the just-sealed block, and adds the voter id of every vote
transaction of the sealed block to `votedUsers`. -/
theorem mine_spec (H : String → String) (st : Blockchain) (hR : Reach H st)
    (a : Option String) (n₁ n₂ : String) (fuel : Nat) :
    (∀ saveOk, st.pendingTransactions = [] →
      minePendingTransactions H st a n₁ n₂ fuel saveOk =
        some (.nothingToMine, st)) ∧
    (∀ b st', minePendingTransactions H st a n₁ n₂ fuel true =
        some (.mined b, st') →
      b.data = .txs st.pendingTransactions ∧
      st'.chain = st.chain ++ [b] ∧
      (∀ addr, a = some addr → addr ≠ "" →
        st'.pendingTransactions = [rewardFor addr st.miningReward n₂] ∧
        (rewardFor addr st.miningReward n₂ ∉ st.pendingTransactions →
          rewardFor addr st.miningReward n₂ ∉ blockTxs b)) ∧
      (minerGiven a = false → st'.pendingTransactions = []) ∧
      (∀ v c ts, Transaction.vote v c ts ∈ blockTxs b →
        v ∈ st'.votedUsers)) := by
  have hI := reach_inv H hR
  constructor
  · intro saveOk hemp
    unfold minePendingTransactions
    rw [if_pos (by simp [hemp])]
  · intro b st' h
    unfold minePendingTransactions at h
    split at h
    · exact absurd h (by simp)
    · split at h
      · cases h
      · rename_i latest hl
        split at h
        · cases h
        · rename_i nb hm
          rw [if_neg (by simp)] at h
          cases h
          obtain ⟨hidx, hprev, hts, hdata, hzero, hhash⟩ :=
            mineLoop_some H st.difficulty fuel (newBlockFor H st n₁ latest) b hm
          have hbtxs : blockTxs b = st.pendingTransactions := by
            simp [blockTxs, hdata, newBlockFor, Block.make]
          refine ⟨hdata, rfl, ?_, ?_, ?_⟩
          · intro addr ha haddr
            subst ha
            constructor
            · show (if addr = "" then []
                else [rewardFor addr st.miningReward n₂]) = _
              rw [if_neg haddr]
            · intro hnot
              rw [hbtxs]
              exact hnot
          · intro hgiven
            rcases a with _ | addr
            · rfl
            · have haddr : addr = "" := by
                simpa [minerGiven] using hgiven
              show (if addr = "" then []
                else [rewardFor addr st.miningReward n₂]) = []
              rw [if_pos haddr]
          · intro v c ts hmem
            show v ∈ (blockTxs b).foldl voteAdd st.votedUsers
            rw [hbtxs] at hmem ⊢
            obtain ⟨hv, -⟩ := hI.pendTxOk (Transaction.vote v c ts) hmem
            exact mem_foldl_voteAdd _ _ v c ts hv hmem

/-- Witness for C4: the concrete reachable state `c4state` mined with miner
address `miner1` seals the admitted vote and records `v1` as having
voted. -/
theorem mine_spec_witness :
    Reach Hzero c4state ∧
    minePendingTransactions Hzero c4state (some "miner1") "8" "9" 0 true =
      some (.mined c4block, c4after) ∧
    c4block.data = .txs c4state.pendingTransactions ∧
    "v1" ∈ c4after.votedUsers :=
  ⟨reach_c4state, mine_c4_eq,
    ((mine_spec Hzero c4state reach_c4state (some "miner1") "8" "9" 0).2
      c4block c4after mine_c4_eq).1,
    ((mine_spec Hzero c4state reach_c4state (some "miner1") "8" "9" 0).2
      c4block c4after mine_c4_eq).2.2.2.2 "v1" "candidateA" "5" (by decide)⟩

/-! ### Claim C10 -/

/-- Claim C10: when persisting the sealed block fails, mining errors with
exactly the message `Failed to save block to database.` in a state where
the sealed block is already on the in-memory chain while the pool is not
cleared, no reward was pushed and `votedUsers` was not updated; a later
successful run then seals the same transactions into a second block. -/
theorem mine_saveFailure_spec (H : String → String) (st : Blockchain)
    (a : Option String) (n₁ n₂ : String) (fuel : Nat) (latest b : Block)
    (hne : st.pendingTransactions ≠ [])
    (hlast : st.chain.getLast? = some latest)
    (hmine : mineLoop H st.difficulty fuel (newBlockFor H st n₁ latest)
      = some b) :
    minePendingTransactions H st a n₁ n₂ fuel false =
      some (.saveBlockFailed "Failed to save block to database.",
        { st with chain := st.chain ++ [b] }) ∧
    b.data = .txs st.pendingTransactions ∧
    (∀ (a₂ : Option String) (n₃ n₄ : String) (fuel₂ : Nat) (b₂ : Block)
        (st₂ : Blockchain),
      minePendingTransactions H { st with chain := st.chain ++ [b] } a₂ n₃ n₄
          fuel₂ true = some (.mined b₂, st₂) →
      b₂.data = .txs st.pendingTransactions) := by
  refine ⟨?_, ?_, ?_⟩
  · unfold minePendingTransactions
    rw [if_neg (by simpa using hne)]
    split
    · next hl2 =>
        rw [hlast] at hl2
        cases hl2
    · next latest2 hl2 =>
        rw [hlast] at hl2
        cases hl2
        split
        · next hm2 =>
            rw [hmine] at hm2
            cases hm2
        · next nb2 hm2 =>
            rw [hmine] at hm2
            cases hm2
            rw [if_pos (by simp)]
  · exact (mineLoop_some H st.difficulty fuel
      (newBlockFor H st n₁ latest) b hmine).2.2.2.1
  · intro a₂ n₃ n₄ fuel₂ b₂ st₂ h
    unfold minePendingTransactions at h
    split at h
    · exact absurd h (by simp)
    · split at h
      · cases h
      · rename_i latest₂ hl₂
        split at h
        · cases h
        · rename_i nb₂ hm₂
          rw [if_neg (by simp)] at h
          cases h
          exact (mineLoop_some H _ fuel₂ _ b₂ hm₂).2.2.2.1

/-- Witness for C10 on the concrete difficulty-0 state `c10state` whose
block-save fails. -/
theorem mine_saveFailure_witness :
    c10state.pendingTransactions ≠ [] ∧
    minePendingTransactions Hid c10state none "8" "9" 0 false =
      some (.saveBlockFailed "Failed to save block to database.",
        { c10state with chain := c10state.chain ++ [c10block] }) :=
  ⟨by decide,
    (mine_saveFailure_spec Hid c10state none "8" "9" 0
      (createGenesisBlock Hid) c10block (by decide) (by decide) (by decide)).1⟩

end ElectionChain
